import Mathlib

/-!
Shallow embedding of `src/contingent/step05_incremental/core.py` and proofs
about it.

Conventions used throughout:
* Python values stored in the cache are modelled by the inductive `PyVal`
  (`None`, strings, tuples, sets, lists).  Python's `==` on these values is
  modelled by the executable `pyBeq`, proved equivalent to structural
  equality (`pyBeq_iff`).  Python sets are modelled by their iteration
  order; `==` on two sets with the same elements in the same order agrees
  with structural equality, which is the case exercised by this program
  (a set is only ever compared against a reloaded or rewritten copy of
  itself).
* `datetime.now()` timestamps are modelled as `Nat`; monotonicity of the
  wall clock is an explicit hypothesis where a theorem needs it.
* Python dicts are modelled as association lists (`alookup` / `aupsert`)
  preserving insertion order; a raised `KeyError` is modelled as `none`.
* `pickle.dump`/`pickle.load` are modelled by an executable token codec
  (`pickle_dumps` / `pickle_loads`) for the cache's two-namespace state,
  with the round-trip proved rather than assumed.
* Task objects are modelled by `Task` carrying a numeric `id` standing for
  Python object identity (`list.remove` on task objects compares with the
  default identity `==`), the boolean outcome of `is_outdated()`, and the
  list of tasks the task's `run()` appends to the task list being drained.
-/

namespace Contingent

/-! ### Python values (cache payloads) -/

/-- Universe of Python values this program stores in its cache:
`None`, `str`, `tuple`, `set` and `list` (cf. `Code.write_cache`, which
stores a set of pairs, a list of strings, a string-or-None title and a
list). -/
inductive PyVal where
  | pnone
  | str (s : String)
  | tuple (xs : List PyVal)
  | pset (xs : List PyVal)
  | plist (xs : List PyVal)

-- Executable model of Python `==` on `PyVal` (structural equality).
mutual

def pyBeq : PyVal → PyVal → Bool
  | .pnone, .pnone => true
  | .str s, .str t => s == t
  | .tuple xs, .tuple ys => pyBeqL xs ys
  | .pset xs, .pset ys => pyBeqL xs ys
  | .plist xs, .plist ys => pyBeqL xs ys
  | _, _ => false

def pyBeqL : List PyVal → List PyVal → Bool
  | [], [] => true
  | x :: xs, y :: ys => pyBeq x y && pyBeqL xs ys
  | _, _ => false

end

theorem pyBeq_iff_aux : ∀ n : Nat,
    (∀ a b : PyVal, sizeOf a ≤ n → (pyBeq a b = true ↔ a = b)) ∧
    (∀ xs ys : List PyVal, sizeOf xs ≤ n → (pyBeqL xs ys = true ↔ xs = ys)) := by
  intro n
  induction n with
  | zero =>
    constructor
    · intro a b h; cases a <;> simp at h
    · intro xs ys h; cases xs <;> simp at h
  | succ n ih =>
    constructor
    · intro a b h
      cases a <;> cases b <;> simp [pyBeq]
      all_goals (rename_i xs ys; exact ih.2 xs ys (by simp at h; omega))
    · intro xs ys h
      cases xs <;> cases ys <;> simp [pyBeqL]
      rename_i x xs y ys
      rw [ih.1 x y (by simp at h; omega), ih.2 xs ys (by simp at h; omega)]

/-- Python `==` on the modelled values coincides with structural equality. -/
theorem pyBeq_iff (a b : PyVal) : pyBeq a b = true ↔ a = b :=
  (pyBeq_iff_aux (sizeOf a)).1 a b (Nat.le_refl _)

instance : DecidableEq PyVal := fun a b => decidable_of_iff _ (pyBeq_iff a b)

/-! ### Association-list model of Python dicts -/

/-- `dic.get(key)` / `dic[key]`: first binding of `key`, if any.  A failed
`dic[key]` lookup raises `KeyError` in Python; here it is `none`. -/
def alookup {κ β : Type} [DecidableEq κ] : List (κ × β) → κ → Option β
  | [], _ => none
  | (k, v) :: rest, key => if k = key then some v else alookup rest key

/-- `dic[key] = val`: replace the binding of `key` in place, or append a new
binding (Python dicts preserve insertion order). -/
def aupsert {κ β : Type} [DecidableEq κ] : List (κ × β) → κ → β → List (κ × β)
  | [], key, val => [(key, val)]
  | (k, v) :: rest, key, val =>
      if k = key then (key, val) :: rest else (k, v) :: aupsert rest key val

/-! ### The cache store (`CacheFile`) -/

/-- One namespace of `CacheFile._data`: a dict from keys to
`(value, timestamp)` pairs. -/
abbrev CacheDict (κ : Type) := List (κ × PyVal × Nat)

/-- `curr_value` as read by `CacheFile.set_value`:
`dic.get(key, (None, None))` yields the stored payload, or `None` when the
key is absent. -/
def get_curr {κ : Type} [DecidableEq κ] (dic : CacheDict κ) (key : κ) : PyVal :=
  match alookup dic key with
  | some (v, _) => v
  | none => PyVal.pnone

/-- `CacheFile.set_value` (core.py lines 181-186): compare the new value
with the currently stored one by Python `==`; if equal return `False`
without touching the dict, otherwise store `(value, now)` and return
`True`.  `now` is the value `datetime.now()` returns during the call. -/
def set_value {κ : Type} [DecidableEq κ] (dic : CacheDict κ) (key : κ)
    (value : PyVal) (now : Nat) : Bool × CacheDict κ :=
  let curr_value := get_curr dic key
  if pyBeq curr_value value then (false, dic)
  else (true, aupsert dic key (value, now))

/-- In-memory state of `CacheFile._data`: the `'output'` and `'input'`
namespaces. -/
structure CacheData where
  output : CacheDict String
  input : CacheDict (String × String)

/-- `CacheFile.set_output`. -/
def set_output (d : CacheData) (name : String) (value : PyVal) (now : Nat) :
    Bool × CacheData :=
  let r := set_value d.output name value now
  (r.1, { d with output := r.2 })

/-- `CacheFile.get_output`: a raw dict lookup; `none` models the raised
`KeyError`. -/
def get_output (d : CacheData) (name : String) : Option (PyVal × Nat) :=
  alookup d.output name

/-- `CacheFile.set_input`. -/
def set_input (d : CacheData) (kind name : String) (data : PyVal) (now : Nat) :
    Bool × CacheData :=
  let r := set_value d.input (kind, name) data now
  (r.1, { d with input := r.2 })

/-- `CacheFile.get_input`: a raw dict lookup; `none` models the raised
`KeyError`. -/
def get_input (d : CacheData) (kind name : String) : Option (PyVal × Nat) :=
  alookup d.input (kind, name)

/-- The empty cache state a `CacheFile` starts with when no file exists. -/
def emptyCache : CacheData := { output := [], input := [] }

/-- One cache write performed by a client of `CacheFile` (used to talk
about which keys a run of the program has written). -/
inductive CacheOp where
  | setO (name : String) (value : PyVal) (now : Nat)
  | setI (kind name : String) (value : PyVal) (now : Nat)

/-- Apply one write to the in-memory cache state, discarding the returned
`changed` flag (as `Code.write_cache` does). -/
def applyOp (d : CacheData) : CacheOp → CacheData
  | .setO name v now => (set_output d name v now).2
  | .setI kind name v now => (set_input d kind name v now).2

/-- Apply a sequence of writes in order. -/
def applyOps (d : CacheData) (ops : List CacheOp) : CacheData :=
  ops.foldl applyOp d

/-- Does this write target key `name` of the `'output'` namespace? -/
def writesO (name : String) : CacheOp → Bool
  | .setO n _ _ => n = name
  | .setI _ _ _ _ => false

/-- Does this write target key `(kind, name)` of the `'input'` namespace? -/
def writesI (kind name : String) : CacheOp → Bool
  | .setO _ _ _ => false
  | .setI k n _ _ => k = kind && n = name

/-- Does this write store a non-`None` value under `name` in `'output'`? -/
def writesONonNone (name : String) : CacheOp → Bool
  | .setO n v _ => n = name && !(pyBeq v .pnone)
  | .setI _ _ _ _ => false

/-- Does this write store a non-`None` value under `(kind, name)` in
`'input'`? -/
def writesINonNone (kind name : String) : CacheOp → Bool
  | .setO _ _ _ => false
  | .setI k n v _ => k = kind && n = name && !(pyBeq v .pnone)

/-! ### Timestamp staleness (`Task.is_outdated_timestamp`) -/

/-- `Task.is_outdated_timestamp` (core.py lines 74-75):
`(output_timestamp is None) or (output_timestamp < input_timestamp)`.
Timestamps are `Nat`; a missing output file gives `none`. -/
def is_outdated_timestamp (input_timestamp : Nat)
    (output_timestamp : Option Nat) : Bool :=
  match output_timestamp with
  | none => true
  | some o => decide (o < input_timestamp)

/-! ### Persistence (`CacheFile.save` / `CacheFile.load`)

`save` pickles `self._data` to the bound path; `load` unpickles it.
`pickle` is external library code; it is modelled by an executable token
codec for the two-namespace cache state, and the exactness the spec
demands of the format is proved (`pickle_roundtrip`), not assumed. -/

/-- Tokens of the serialized form: a prefix encoding with explicit
arities. -/
inductive PTok where
  | tNone
  | tStr (s : String)
  | tNat (n : Nat)
  | tTuple (n : Nat)
  | tSet (n : Nat)
  | tList (n : Nat)

-- Serialize one value / a block of values.
mutual

def encV : PyVal → List PTok
  | .pnone => [.tNone]
  | .str s => [.tStr s]
  | .tuple xs => .tTuple xs.length :: encL xs
  | .pset xs => .tSet xs.length :: encL xs
  | .plist xs => .tList xs.length :: encL xs

def encL : List PyVal → List PTok
  | [] => []
  | x :: xs => encV x ++ encL xs

end

-- Decode one value / `n` consecutive values, with explicit fuel (each
-- recursive call spends one unit; `2 *` the token count is enough fuel).
mutual

def decV : Nat → List PTok → Option (PyVal × List PTok)
  | 0, _ => none
  | _ + 1, [] => none
  | _ + 1, .tNone :: r => some (.pnone, r)
  | _ + 1, .tStr s :: r => some (.str s, r)
  | _ + 1, .tNat _ :: _ => none
  | f + 1, .tTuple n :: r =>
      match decL f n r with
      | some (xs, r') => some (.tuple xs, r')
      | none => none
  | f + 1, .tSet n :: r =>
      match decL f n r with
      | some (xs, r') => some (.pset xs, r')
      | none => none
  | f + 1, .tList n :: r =>
      match decL f n r with
      | some (xs, r') => some (.plist xs, r')
      | none => none

def decL : Nat → Nat → List PTok → Option (List PyVal × List PTok)
  | _, 0, r => some ([], r)
  | 0, _ + 1, _ => none
  | f + 1, n + 1, r =>
      match decV f r with
      | some (x, r') =>
          match decL f n r' with
          | some (xs, r'') => some (x :: xs, r'')
          | none => none
      | none => none

end

/-- Serialize one `'output'` entry `name ↦ (value, timestamp)`. -/
def encOutEntry : String × PyVal × Nat → List PTok
  | (k, v, ts) => .tStr k :: encV v ++ [.tNat ts]

/-- Serialize the `'output'` dict in order. -/
def encOut : CacheDict String → List PTok
  | [] => []
  | e :: es => encOutEntry e ++ encOut es

/-- Serialize one `'input'` entry `(kind, name) ↦ (value, timestamp)`. -/
def encInEntry : (String × String) × PyVal × Nat → List PTok
  | ((kind, name), v, ts) => .tStr kind :: .tStr name :: encV v ++ [.tNat ts]

/-- Serialize the `'input'` dict in order. -/
def encIn : CacheDict (String × String) → List PTok
  | [] => []
  | e :: es => encInEntry e ++ encIn es

/-- Decode one `'output'` entry. -/
def decOutEntry (f : Nat) : List PTok → Option ((String × PyVal × Nat) × List PTok)
  | .tStr k :: r =>
      match decV f r with
      | some (v, .tNat ts :: r') => some ((k, v, ts), r')
      | _ => none
  | _ => none

/-- Decode `n` consecutive `'output'` entries. -/
def decOut (f : Nat) : Nat → List PTok → Option (CacheDict String × List PTok)
  | 0, r => some ([], r)
  | n + 1, r =>
      match decOutEntry f r with
      | some (e, r') =>
          match decOut f n r' with
          | some (es, r'') => some (e :: es, r'')
          | none => none
      | none => none

/-- Decode one `'input'` entry. -/
def decInEntry (f : Nat) :
    List PTok → Option (((String × String) × PyVal × Nat) × List PTok)
  | .tStr kind :: .tStr name :: r =>
      match decV f r with
      | some (v, .tNat ts :: r') => some (((kind, name), v, ts), r')
      | _ => none
  | _ => none

/-- Decode `n` consecutive `'input'` entries. -/
def decIn (f : Nat) :
    Nat → List PTok → Option (CacheDict (String × String) × List PTok)
  | 0, r => some ([], r)
  | n + 1, r =>
      match decInEntry f r with
      | some (e, r') =>
          match decIn f n r' with
          | some (es, r'') => some (e :: es, r'')
          | none => none
      | none => none

/-- Model of `pickle.dump(self._data, f)`: the serialized bytes of the
whole two-namespace state. -/
def pickle_dumps (d : CacheData) : List PTok :=
  .tNat d.output.length :: encOut d.output
    ++ .tNat d.input.length :: encIn d.input

/-- Parsing phase of `pickle.load`, with the decoding fuel explicit. -/
def pickle_loads_fuel (f : Nat) (toks : List PTok) : Option CacheData :=
  match toks with
  | .tNat n :: r =>
      match decOut f n r with
      | some (out, .tNat m :: r') =>
          match decIn f m r' with
          | some (inp, []) => some { output := out, input := inp }
          | _ => none
      | _ => none
  | _ => none

/-- Model of `pickle.load(f)`: parse the serialized bytes back; `none`
models an unpickling failure on bytes not produced by `pickle_dumps`. -/
def pickle_loads (toks : List PTok) : Option CacheData :=
  pickle_loads_fuel (2 * toks.length) toks

/-- The file system as the cache sees it: a map from paths to file
contents. -/
abbrev FileSys := List (String × List PTok)

/-- A `CacheFile`: bound path plus in-memory `_data`. -/
structure CacheFile where
  path : String
  data : CacheData

/-- `CacheFile.save` (core.py lines 176-179): write the pickled state to
the bound path (directory creation is not modelled). -/
def CacheFile.save (c : CacheFile) (fs : FileSys) : FileSys :=
  aupsert fs c.path (pickle_dumps c.data)

/-- `CacheFile.load` (core.py lines 172-174): read and unpickle the file
at the given path; `none` models a missing file or corrupt contents. -/
def CacheFile.loadPath (path : String) (fs : FileSys) : Option CacheData :=
  match alookup fs path with
  | some toks => pickle_loads toks
  | none => none

/-- `CacheFile.__init__` (core.py lines 163-170): start empty; if the path
exists, load the persisted state into `_data`. -/
def CacheFile.init (path : String) (fs : FileSys) : Option CacheFile :=
  match alookup fs path with
  | some _ =>
      match CacheFile.loadPath path fs with
      | some d => some { path := path, data := d }
      | none => none
  | none => some { path := path, data := emptyCache }

/-! ### Task objects and the task-list drain (`BuildContext.run_tasks`)

A `Task` models one task object handed to `BuildContext`:
* `id` stands for Python object identity.  `task_list.remove(task)`
  compares with `==`, which on these task objects is identity, so removal
  is modelled as removal of the first element with the same `id`.  Two
  distinct objects never share an `id`; the same object added to the list
  twice appears as two list entries with the same `id`.
* `outdated` is the value the task's `is_outdated()` returns when its
  `exec` is invoked.
* `spawns` are the (new) task objects the task's `run()` appends to the
  task list being drained, in order.  A `run()` that does anything else
  (cache writes, file output) does not affect the drain loop and is not
  modelled here. -/

inductive Task where
  | mk (id : Nat) (outdated : Bool) (spawns : List Task)

def Task.id : Task → Nat
  | .mk i _ _ => i

def Task.outdated : Task → Bool
  | .mk _ o _ => o

def Task.spawns : Task → List Task
  | .mk _ _ sp => sp

/-- The part of `BuildContext` state that `run_tasks` touches, for one task
list.  `evaluated` is ghost instrumentation: it records, in order, every
task on which `exec` was invoked (the Python code keeps no such list). -/
structure RunState where
  task_list : List Task
  executed_tasks : List Task
  evaluated : List Task

/-- `Task.exec` (core.py lines 61-66) as seen by the drain loop:
`self.ctx = ctx; if self.is_outdated(): self.run(); return True` else
`return False`.  Here `run()`'s observable effect on the drain is
appending `t.spawns` to the task list. -/
def Task.exec (t : Task) (s : RunState) : Bool × RunState :=
  let s1 := { s with evaluated := s.evaluated ++ [t] }
  if t.outdated then (true, { s1 with task_list := s1.task_list ++ t.spawns })
  else (false, s1)

/-- Python `task_list.remove(task)`: delete the first occurrence of the
task (identity comparison, hence comparison of `id`s).  In the states
reachable by the drain loop the task is always present; on a list without
it, Python would raise `ValueError`, which never happens below. -/
def removeFirst : List Task → Nat → List Task
  | [], _ => []
  | x :: xs, i => if x.id = i then xs else x :: removeFirst xs i

/-- `BuildContext.run_task` (core.py lines 26-30):
`if task.exec(self): self.executed_tasks.append(task)` then
`if task_list: task_list.remove(task)`. -/
def run_task (s : RunState) (t : Task) : RunState :=
  let r := t.exec s
  let s2 :=
    if r.1 then { r.2 with executed_tasks := r.2.executed_tasks ++ [t] }
    else r.2
  { s2 with
    task_list :=
      if s2.task_list.isEmpty then s2.task_list
      else removeFirst s2.task_list t.id }

/-- One pass of the drain loop: `for task in task_list[:]:
self.run_task(task_list, task)` over the snapshot `snap`. -/
def runPass (s : RunState) (snap : List Task) : RunState :=
  snap.foldl run_task s

-- `allT t` lists every task object reachable from `t` through `spawns`
-- (the task itself first); `allLT` does so for each member of a list.
mutual

def allT : Task → List Task
  | .mk i o sp => .mk i o sp :: allLT sp

def allLT : List Task → List Task
  | [] => []
  | t :: ts => allT t ++ allLT ts

end

/-- Total number of task objects reachable from the members of a list;
the termination measure of the drain loop (each processed snapshot entry
removes one task from the live list and adds only its spawns, so every
pass strictly decreases this measure). -/
def sizeL (l : List Task) : Nat := (allLT l).length

/-- The `while task_list:` loop of `BuildContext.run_tasks`, with an
explicit iteration bound.  `run_tasks` below instantiates the bound with
`sizeL`, which is proved sufficient (`run_tasks_complete`): the loop
exits with an empty list. -/
def run_tasks_fuel : Nat → RunState → RunState
  | 0, s => s
  | f + 1, s =>
      if s.task_list.isEmpty then s
      else run_tasks_fuel f (runPass s s.task_list)

/-- `BuildContext.run_tasks` (core.py lines 32-35). -/
def run_tasks (s : RunState) : RunState :=
  run_tasks_fuel (sizeL s.task_list) s

/-- Initial state for `run_tasks` on a freshly populated context: the given
task list, no executed tasks yet. -/
def initState (l : List Task) : RunState :=
  { task_list := l, executed_tasks := [], evaluated := [] }

/-- Count of tasks with identity `i` in a list of task objects. -/
def cntId (i : Nat) : List Task → Nat
  | [] => 0
  | t :: ts => (if t.id = i then 1 else 0) + cntId i ts

/-! ### `Task.exec` in isolation (frame of a skipped task)

For the skipped-task claim the context binding performed by `exec` must be
visible, so a task object here carries its `ctx` attribute explicitly, and
the effect of `run()` on the context is an arbitrary function. -/

/-- The `BuildContext` attributes a task's `run()` could mutate. -/
structure ExecCtxState where
  compile_tasks : List Nat
  link_tasks : List Nat
  executed_tasks : List Nat
  cache : CacheData

/-- A task object as `Task.exec` sees it: the result its `is_outdated()`
returns, and its `ctx` attribute (`none` before the first `exec` binds
it; the `Nat` is a reference to a context object). -/
structure TaskObj where
  outdated : Bool
  ctx : Option Nat
  deriving DecidableEq

/-- `Task.exec` (core.py lines 61-66) with the frame explicit:
`self.ctx = ctx` always mutates the task object; then, only when
`is_outdated()` holds, `run()` (an arbitrary state transformer supplied
by the concrete subclass) acts on the context state. -/
def TaskObj.exec (run : ExecCtxState → ExecCtxState) (t : TaskObj)
    (ctxRef : Nat) (st : ExecCtxState) : Bool × TaskObj × ExecCtxState :=
  let t' : TaskObj := { t with ctx := some ctxRef }
  if t'.outdated then (true, t', run st) else (false, t', st)

/-! ### The AST model (`AstNode` / `AstDoc`) -/

/-- `AstNode`: a labelled tree node with an optional text payload.
Python's lazily initialised `children = None` and a child list are both
modelled by a `List` (absent = `[]`). -/
inductive AstNode where
  | mk (name : String) (data : Option String) (children : List AstNode)

def AstNode.name : AstNode → String
  | .mk n _ _ => n

def AstNode.data : AstNode → Option String
  | .mk _ d _ => d

def AstNode.children : AstNode → List AstNode
  | .mk _ _ c => c

-- `AstNode.iter` (core.py lines 96-100): depth-first traversal yielding
-- `(depth, node)`, the node itself before its children, children in order.
mutual

def iterA : AstNode → Nat → List (Nat × AstNode)
  | .mk n d c, depth => (depth, .mk n d c) :: iterC c (depth + 1)

def iterC : List AstNode → Nat → List (Nat × AstNode)
  | [], _ => []
  | c :: cs, depth => iterA c depth ++ iterC cs depth

end

/-- Modelled from the spec: `find_first`, imported from the repository's
`utils` module which is not included under `src/`.  Per the spec's use
("the payload of the first depth-first node whose label is `h1`") it
returns the first element of the sequence satisfying the predicate, or
`None`. -/
def find_first {β : Type} : List β → (β → Bool) → Option β
  | [], _ => none
  | x :: xs, p => if p x then some x else find_first xs p

/-- `AstDoc.title` (core.py lines 122-125): the payload of the first
depth-first node named `h1`, or the sentinel `'Untitled'`.  The result is
an `Option` because the `h1` node's payload may itself be `None`. -/
def title (doc : AstNode) : Option String :=
  match find_first (iterA doc 0) (fun x => x.2.name == "h1") with
  | some h1 => h1.2.data
  | none => some "Untitled"

/-- An `AstDoc` (core.py lines 113-116) is the root node, labelled
`'doc'`. -/
def astDoc (data : Option String) (children : List AstNode) : AstNode :=
  .mk "doc" data children

/-! ### Slug derivation (`AstNode.slug`) -/

/-- Python `str.lower()` (per-character lowercasing). -/
def strLower (s : String) : String := ⟨s.data.map Char.toLower⟩

/-- Python `str.replace(' ', '_')`: the pattern is a single character, so
the replacement acts character-wise. -/
def strReplaceSpaceUnderscore (s : String) : String :=
  ⟨s.data.map fun c => if c = ' ' then '_' else c⟩

/-- Python `str.replace(',', '')`: deletion of every comma. -/
def strRemoveComma (s : String) : String :=
  ⟨s.data.filter fun c => c ≠ ','⟩

/-- `AstNode.slug` (core.py lines 107-110):
`self.data.lower().replace(' ', '_').replace(',', '')`, on a node whose
`data` is text (on `data = None` Python would raise `AttributeError`). -/
def slug (data : String) : String :=
  strRemoveComma (strReplaceSpaceUnderscore (strLower data))

/-- The slug as the spec words it: each character of the lowercased
payload has spaces become underscores, and commas are removed. -/
def slugSpec (data : String) : String :=
  ⟨((data.data.map fun c =>
      let lc := Char.toLower c
      if lc = ' ' then '_' else lc).filter fun c => c ≠ ',')⟩

/-! ## Theorems -/

/-! ### Dictionary lemmas -/

theorem alookup_aupsert_self {κ β : Type} [DecidableEq κ]
    (l : List (κ × β)) (k : κ) (v : β) : alookup (aupsert l k v) k = some v := by
  induction l with
  | nil => simp [aupsert, alookup]
  | cons p rest ih =>
    obtain ⟨k', v'⟩ := p
    by_cases h : k' = k <;> simp [aupsert, alookup, h, ih]

theorem alookup_aupsert_ne {κ β : Type} [DecidableEq κ]
    (l : List (κ × β)) (k k' : κ) (v : β) (hne : k' ≠ k) :
    alookup (aupsert l k v) k' = alookup l k' := by
  have hne' : k ≠ k' := fun hh => hne hh.symm
  induction l with
  | nil => simp [aupsert, alookup, hne']
  | cons p rest ih =>
    obtain ⟨k'', v''⟩ := p
    by_cases h : k'' = k
    · subst h
      simp [aupsert, alookup, hne']
    · simp [aupsert, alookup, h, ih]

theorem pyBeq_refl (a : PyVal) : pyBeq a a = true := (pyBeq_iff a a).2 rfl

/-! ### C4: timestamp staleness -/

/-- C4: `is_outdated_timestamp i o` is true exactly when the output
timestamp is absent or strictly earlier than the input timestamp; equal
timestamps count as up to date. -/
theorem is_outdated_timestamp_spec (i : Nat) (o : Option Nat) :
    (is_outdated_timestamp i o = true ↔
        o = none ∨ ∃ x, o = some x ∧ x < i)
    ∧ is_outdated_timestamp i (some i) = false := by
  constructor
  · cases o <;> simp [is_outdated_timestamp]
  · simp [is_outdated_timestamp]

/-! ### C9: slug derivation -/

/-- C9: for a node with text payload, `slug` is the payload lowercased with
each space replaced by an underscore and each comma removed; in particular
`"Getting, Started Here"` slugs to `"getting_started_here"`. -/
theorem slug_spec (data : String) (h : data ≠ "") :
    slug data = slugSpec data
    ∧ slug "Getting, Started Here" = "getting_started_here" := by
  constructor
  · simp only [slug, slugSpec, strLower, strReplaceSpaceUnderscore,
      strRemoveComma, List.map_map]
    rfl
  · rfl

/-- Witness for C9 at the spec's concrete payload. -/
theorem slug_spec_witness :
    "Getting, Started Here" ≠ ""
    ∧ (slug "Getting, Started Here" = slugSpec "Getting, Started Here"
        ∧ slug "Getting, Started Here" = "getting_started_here") :=
  ⟨by decide, slug_spec "Getting, Started Here" (by decide)⟩

/-! ### C1 / C10: change-aware writes -/

/-- Shared spec of `set_value`: the returned flag is true exactly when the
new value differs from the currently stored value, where an absent key
compares as if it stored `None`; an unchanged write is a no-op on the
dict; a changing write stores `(value, now)`, and (for a monotone clock)
the stored timestamp strictly increases. -/
theorem set_value_spec {κ : Type} [DecidableEq κ] (dic : CacheDict κ)
    (key : κ) (value : PyVal) (now : Nat)
    (hclock : ∀ cv ts, alookup dic key = some (cv, ts) → ts < now) :
    ((set_value dic key value now).1 = true ↔ get_curr dic key ≠ value)
    ∧ ((set_value dic key value now).1 = false →
        (set_value dic key value now).2 = dic)
    ∧ ((set_value dic key value now).1 = true →
        alookup (set_value dic key value now).2 key = some (value, now)
        ∧ ∀ cv ts, alookup dic key = some (cv, ts) →
            ∃ ts', alookup (set_value dic key value now).2 key
                = some (value, ts') ∧ ts < ts') := by
  by_cases h : get_curr dic key = value
  · refine ⟨?_, ?_, ?_⟩ <;> simp [set_value, h, pyBeq_refl]
  · have hb : pyBeq (get_curr dic key) value = false := by
      cases hb : pyBeq (get_curr dic key) value
      · rfl
      · exact absurd ((pyBeq_iff _ _).1 hb) h
    refine ⟨?_, ?_, ?_⟩
    · simp [set_value, hb, h]
    · simp [set_value, hb]
    · intro _
      refine ⟨by simp [set_value, hb, alookup_aupsert_self], ?_⟩
      intro cv ts hl
      exact ⟨now, by simp [set_value, hb, alookup_aupsert_self],
        hclock cv ts hl⟩

/-- C1 (amended): change-aware writes through `set_output` and
`set_input`.  The flag is true exactly when the new value differs from the
currently stored value for that key, an absent key being compared as if it
stored `None`; an unchanged write leaves the store (hence the stored
timestamp) untouched; a changing write stores `(value, now)`, whose
timestamp strictly exceeds any previously stored timestamp for that key
when the clock is monotone. -/
theorem set_write_change_aware (d : CacheData) (name kind : String)
    (value : PyVal) (now : Nat)
    (hoclock : ∀ cv ts, get_output d name = some (cv, ts) → ts < now)
    (hiclock : ∀ cv ts, get_input d kind name = some (cv, ts) → ts < now) :
    (((set_output d name value now).1 = true ↔
        get_curr d.output name ≠ value)
      ∧ ((set_output d name value now).1 = false →
          (set_output d name value now).2 = d)
      ∧ ((set_output d name value now).1 = true →
          get_output (set_output d name value now).2 name = some (value, now)
          ∧ ∀ cv ts, get_output d name = some (cv, ts) → ts < now))
    ∧ (((set_input d kind name value now).1 = true ↔
        get_curr d.input (kind, name) ≠ value)
      ∧ ((set_input d kind name value now).1 = false →
          (set_input d kind name value now).2 = d)
      ∧ ((set_input d kind name value now).1 = true →
          get_input (set_input d kind name value now).2 kind name
            = some (value, now)
          ∧ ∀ cv ts, get_input d kind name = some (cv, ts) → ts < now)) := by
  have ho := set_value_spec d.output name value now hoclock
  have hi := set_value_spec d.input (kind, name) value now hiclock
  constructor
  · refine ⟨ho.1, fun h => ?_, fun h => ⟨(ho.2.2 h).1, hoclock⟩⟩
    have := ho.2.1 h
    simp [set_output, this]
  · refine ⟨hi.1, fun h => ?_, fun h => ⟨(hi.2.2 h).1, hiclock⟩⟩
    have := hi.2.1 h
    simp [set_input, this]

/-- Witness for C1's amended theorem: writing `"v"` to the absent key
`"k"` of the empty store with clock value `3`. -/
theorem set_write_change_aware_witness :
    (∀ cv ts, get_output emptyCache "k" = some (cv, ts) → ts < 3)
    ∧ (∀ cv ts, get_input emptyCache "kd" "k" = some (cv, ts) → ts < 3)
    ∧ ((((set_output emptyCache "k" (.str "v") 3).1 = true ↔
          get_curr emptyCache.output "k" ≠ .str "v")
        ∧ ((set_output emptyCache "k" (.str "v") 3).1 = false →
            (set_output emptyCache "k" (.str "v") 3).2 = emptyCache)
        ∧ ((set_output emptyCache "k" (.str "v") 3).1 = true →
            get_output (set_output emptyCache "k" (.str "v") 3).2 "k"
              = some (.str "v", 3)
            ∧ ∀ cv ts, get_output emptyCache "k" = some (cv, ts) → ts < 3))
      ∧ (((set_input emptyCache "kd" "k" (.str "v") 3).1 = true ↔
          get_curr emptyCache.input ("kd", "k") ≠ .str "v")
        ∧ ((set_input emptyCache "kd" "k" (.str "v") 3).1 = false →
            (set_input emptyCache "kd" "k" (.str "v") 3).2 = emptyCache)
        ∧ ((set_input emptyCache "kd" "k" (.str "v") 3).1 = true →
            get_input (set_input emptyCache "kd" "k" (.str "v") 3).2 "kd" "k"
              = some (.str "v", 3)
            ∧ ∀ cv ts, get_input emptyCache "kd" "k" = some (cv, ts) →
                ts < 3))) :=
  ⟨fun cv ts h => by simp [get_output, emptyCache, alookup] at h,
   fun cv ts h => by simp [get_input, emptyCache, alookup] at h,
   set_write_change_aware emptyCache "k" "kd" (.str "v") 3
     (fun cv ts h => by simp [get_output, emptyCache, alookup] at h)
     (fun cv ts h => by simp [get_input, emptyCache, alookup] at h)⟩

/-- Counterexample to C1 as stated: writing `None` to the absent key
`"k"` returns `False`, although the claim's "the call returns true ...
(or the key was absent)" requires `True` for a write to an absent key. -/
theorem set_value_absent_none_returns_false :
    (set_output emptyCache "k" PyVal.pnone 0).1 = false := rfl

/-- C10: writing `None` to a key absent from the targeted namespace
returns `False` and creates no entry (the absent key is compared as if it
stored `None`), and a subsequent get for that key still fails. -/
theorem set_none_absent_noop (d : CacheData) (name kind : String) (now : Nat)
    (ho : alookup d.output name = none)
    (hi : alookup d.input (kind, name) = none) :
    set_output d name .pnone now = (false, d)
    ∧ get_output (set_output d name .pnone now).2 name = none
    ∧ set_input d kind name .pnone now = (false, d)
    ∧ get_input (set_input d kind name .pnone now).2 kind name = none := by
  have hco : get_curr d.output name = .pnone := by simp [get_curr, ho]
  have hci : get_curr d.input (kind, name) = .pnone := by simp [get_curr, hi]
  have h1 : set_output d name .pnone now = (false, d) := by
    simp [set_output, set_value, hco, pyBeq_refl]
  have h2 : set_input d kind name .pnone now = (false, d) := by
    simp [set_input, set_value, hci, pyBeq_refl]
  exact ⟨h1, by simp [h1, get_output, ho], h2, by simp [h2, get_input, hi]⟩

/-- Witness for C10 on the empty store. -/
theorem set_none_absent_noop_witness :
    alookup emptyCache.output "x" = none
    ∧ alookup emptyCache.input ("doc", "x") = none
    ∧ (set_output emptyCache "x" .pnone 7 = (false, emptyCache)
      ∧ get_output (set_output emptyCache "x" .pnone 7).2 "x" = none
      ∧ set_input emptyCache "doc" "x" .pnone 7 = (false, emptyCache)
      ∧ get_input (set_input emptyCache "doc" "x" .pnone 7).2 "doc" "x"
          = none) :=
  ⟨rfl, rfl, set_none_absent_noop emptyCache "x" "doc" 7 rfl rfl⟩

/-! ### C7: reads of written / never-written keys -/

theorem applyOp_output_not_written (d : CacheData) (op : CacheOp)
    (name : String) (h : writesO name op = false) :
    get_output (applyOp d op) name = get_output d name := by
  cases op with
  | setO n v now =>
    simp [writesO] at h
    simp only [applyOp, set_output, get_output, set_value]
    split
    · rfl
    · exact alookup_aupsert_ne _ _ _ _ fun hh => h hh.symm
  | setI k n v now =>
    simp [applyOp, set_input, get_output]

theorem applyOp_input_not_written (d : CacheData) (op : CacheOp)
    (kind name : String) (h : writesI kind name op = false) :
    get_input (applyOp d op) kind name = get_input d kind name := by
  cases op with
  | setO n v now =>
    simp [applyOp, set_output, get_input]
  | setI k n v now =>
    simp [writesI] at h
    simp only [applyOp, set_input, get_input, set_value]
    split
    · rfl
    · refine alookup_aupsert_ne _ _ _ _ fun hh => ?_
      have h1 : kind = k := congrArg Prod.fst hh
      have h2 : name = n := congrArg Prod.snd hh
      exact h h1.symm h2.symm

theorem applyOp_output_mapped (d : CacheData) (op : CacheOp) (name : String)
    (h : (get_output d name).isSome) :
    (get_output (applyOp d op) name).isSome := by
  cases op with
  | setO n v now =>
    simp only [applyOp, set_output, get_output, set_value]
    split
    · exact h
    · by_cases hn : n = name
      · subst hn
        simp [alookup_aupsert_self]
      · rw [alookup_aupsert_ne _ _ _ _ fun hh => hn hh.symm]
        exact h
  | setI k n v now =>
    simpa [applyOp, set_input, get_output] using h

theorem applyOp_input_mapped (d : CacheData) (op : CacheOp)
    (kind name : String) (h : (get_input d kind name).isSome) :
    (get_input (applyOp d op) kind name).isSome := by
  cases op with
  | setO n v now =>
    simpa [applyOp, set_output, get_input] using h
  | setI k n v now =>
    simp only [applyOp, set_input, get_input, set_value]
    split
    · exact h
    · by_cases hn : (k, n) = (kind, name)
      · rw [← hn]
        simp [alookup_aupsert_self]
      · rw [alookup_aupsert_ne _ _ _ _ fun hh => hn hh.symm]
        exact h

theorem get_curr_ne_pnone_mapped {κ : Type} [DecidableEq κ]
    (dic : CacheDict κ) (key : κ) (h : get_curr dic key ≠ .pnone) :
    (alookup dic key).isSome := by
  unfold get_curr at h
  cases hl : alookup dic key with
  | none => rw [hl] at h; exact absurd rfl h
  | some p => simp

theorem applyOp_output_nonNone (d : CacheData) (op : CacheOp) (name : String)
    (h : writesONonNone name op = true) :
    (get_output (applyOp d op) name).isSome := by
  cases op with
  | setI k n v now => simp [writesINonNone, writesONonNone] at h
  | setO n v now =>
    have hn : n = name := by
      by_contra hne
      simp [writesONonNone, hne] at h
    have hv : v ≠ PyVal.pnone := by
      intro hveq
      subst hveq
      simp [writesONonNone, pyBeq_refl] at h
    subst hn
    by_cases hb : pyBeq (get_curr d.output n) v = true
    · have hcv : get_curr d.output n = v := (pyBeq_iff _ _).1 hb
      simp only [applyOp, set_output, get_output, set_value, hb, if_true]
      refine get_curr_ne_pnone_mapped _ _ ?_
      rw [hcv]
      exact hv
    · have hb' : pyBeq (get_curr d.output n) v = false :=
        Bool.eq_false_iff.2 hb
      simp [applyOp, set_output, get_output, set_value, hb',
        alookup_aupsert_self]

theorem applyOp_input_nonNone (d : CacheData) (op : CacheOp)
    (kind name : String) (h : writesINonNone kind name op = true) :
    (get_input (applyOp d op) kind name).isSome := by
  cases op with
  | setO n v now => simp [writesINonNone] at h
  | setI k n v now =>
    have hk : k = kind := by
      by_contra hne
      simp [writesINonNone, hne] at h
    have hn : n = name := by
      by_contra hne
      simp [writesINonNone, hne] at h
    have hv : v ≠ PyVal.pnone := by
      intro hveq
      subst hveq
      simp [writesINonNone, pyBeq_refl] at h
    subst hk
    subst hn
    by_cases hb : pyBeq (get_curr d.input (k, n)) v = true
    · have hcv : get_curr d.input (k, n) = v := (pyBeq_iff _ _).1 hb
      simp only [applyOp, set_input, get_input, set_value, hb, if_true]
      refine get_curr_ne_pnone_mapped _ _ ?_
      rw [hcv]
      exact hv
    · have hb' : pyBeq (get_curr d.input (k, n)) v = false :=
        Bool.eq_false_iff.2 hb
      simp [applyOp, set_input, get_input, set_value, hb',
        alookup_aupsert_self]

theorem applyOps_output_none (ops : List CacheOp) :
    ∀ (d : CacheData) (name : String), get_output d name = none →
      (∀ op ∈ ops, writesO name op = false) →
      get_output (applyOps d ops) name = none := by
  induction ops with
  | nil => intro d name h _; exact h
  | cons op rest ih =>
    intro d name h hops
    have h1 := applyOp_output_not_written d op name
      (hops op (List.mem_cons_self op rest))
    exact ih (applyOp d op) name (h1.trans h)
      fun o ho => hops o (List.mem_cons_of_mem op ho)

theorem applyOps_input_none (ops : List CacheOp) :
    ∀ (d : CacheData) (kind name : String), get_input d kind name = none →
      (∀ op ∈ ops, writesI kind name op = false) →
      get_input (applyOps d ops) kind name = none := by
  induction ops with
  | nil => intro d kind name h _; exact h
  | cons op rest ih =>
    intro d kind name h hops
    have h1 := applyOp_input_not_written d op kind name
      (hops op (List.mem_cons_self op rest))
    exact ih (applyOp d op) kind name (h1.trans h)
      fun o ho => hops o (List.mem_cons_of_mem op ho)

theorem applyOps_output_mapped (ops : List CacheOp) :
    ∀ (d : CacheData) (name : String), (get_output d name).isSome →
      (get_output (applyOps d ops) name).isSome := by
  induction ops with
  | nil => intro d name h; exact h
  | cons op rest ih =>
    intro d name h
    exact ih (applyOp d op) name (applyOp_output_mapped d op name h)

theorem applyOps_input_mapped (ops : List CacheOp) :
    ∀ (d : CacheData) (kind name : String), (get_input d kind name).isSome →
      (get_input (applyOps d ops) kind name).isSome := by
  induction ops with
  | nil => intro d kind name h; exact h
  | cons op rest ih =>
    intro d kind name h
    exact ih (applyOp d op) kind name (applyOp_input_mapped d op kind name h)

theorem applyOps_output_nonNone (ops : List CacheOp) :
    ∀ (d : CacheData) (name : String),
      (∃ op ∈ ops, writesONonNone name op = true) →
      (get_output (applyOps d ops) name).isSome := by
  induction ops with
  | nil => intro d name h; obtain ⟨op, hmem, _⟩ := h; cases hmem
  | cons op rest ih =>
    intro d name h
    obtain ⟨o, hmem, hw⟩ := h
    rcases List.mem_cons.1 hmem with heq | hmem'
    · subst heq
      exact applyOps_output_mapped rest (applyOp d o) name
        (applyOp_output_nonNone d o name hw)
    · exact ih (applyOp d op) name ⟨o, hmem', hw⟩

theorem applyOps_input_nonNone (ops : List CacheOp) :
    ∀ (d : CacheData) (kind name : String),
      (∃ op ∈ ops, writesINonNone kind name op = true) →
      (get_input (applyOps d ops) kind name).isSome := by
  induction ops with
  | nil => intro d kind name h; obtain ⟨op, hmem, _⟩ := h; cases hmem
  | cons op rest ih =>
    intro d kind name h
    obtain ⟨o, hmem, hw⟩ := h
    rcases List.mem_cons.1 hmem with heq | hmem'
    · subst heq
      exact applyOps_input_mapped rest (applyOp d o) kind name
        (applyOp_input_nonNone d o kind name hw)
    · exact ih (applyOp d op) kind name ⟨o, hmem', hw⟩

/-- C7 (amended): after any sequence of writes to an initially empty
store, a get for a key never targeted by a write fails (`none` models the
raised `KeyError`), and a get for a key some write actually stored a
non-`None` value under returns a stored `(value, timestamp)` pair.  (As
stated the claim fails for a key whose only write stored `None` to an
absent key — see the counterexample and C10.) -/
theorem get_written_keys (ops : List CacheOp) (name kind : String) :
    ((∀ op ∈ ops, writesO name op = false) →
      get_output (applyOps emptyCache ops) name = none)
    ∧ ((∃ op ∈ ops, writesONonNone name op = true) →
        ∃ p, get_output (applyOps emptyCache ops) name = some p)
    ∧ ((∀ op ∈ ops, writesI kind name op = false) →
        get_input (applyOps emptyCache ops) kind name = none)
    ∧ ((∃ op ∈ ops, writesINonNone kind name op = true) →
        ∃ p, get_input (applyOps emptyCache ops) kind name = some p) := by
  refine ⟨fun h => applyOps_output_none ops emptyCache name rfl h,
    fun h => ?_,
    fun h => applyOps_input_none ops emptyCache kind name rfl h,
    fun h => ?_⟩
  · exact Option.isSome_iff_exists.1 (applyOps_output_nonNone ops emptyCache name h)
  · exact Option.isSome_iff_exists.1 (applyOps_input_nonNone ops emptyCache kind name h)

/-- Counterexample to C7 as stated: the key `"x"` is previously written
(via `set_output("x", None)` on a fresh store), yet a subsequent
`get_output("x")` still fails with the key-not-found error, where the
claim requires it to return a stored pair without error. -/
theorem get_after_none_write_fails :
    writesO "x" (CacheOp.setO "x" PyVal.pnone 5) = true
    ∧ get_output (applyOps emptyCache [CacheOp.setO "x" PyVal.pnone 5]) "x"
        = none := ⟨rfl, rfl⟩

/-- Witness for C7's amended theorem: a never-written key fails, and a key
written with a string value succeeds. -/
theorem get_written_keys_witness :
    ((∀ op ∈ [CacheOp.setO "a" (PyVal.str "v") 1], writesO "x" op = false)
      ∧ get_output (applyOps emptyCache [CacheOp.setO "a" (PyVal.str "v") 1])
          "x" = none)
    ∧ ((∃ op ∈ [CacheOp.setO "x" (PyVal.str "v") 1],
          writesONonNone "x" op = true)
      ∧ ∃ p, get_output
          (applyOps emptyCache [CacheOp.setO "x" (PyVal.str "v") 1]) "x"
            = some p) :=
  ⟨⟨by decide,
    (get_written_keys [CacheOp.setO "a" (PyVal.str "v") 1] "x" "k").1
      (by decide)⟩,
   ⟨⟨CacheOp.setO "x" (PyVal.str "v") 1, List.mem_singleton.2 rfl, rfl⟩,
    (get_written_keys [CacheOp.setO "x" (PyVal.str "v") 1] "x" "k").2.1
      ⟨CacheOp.setO "x" (PyVal.str "v") 1, List.mem_singleton.2 rfl, rfl⟩⟩⟩

/-! ### C6: save/load round trip -/

theorem encV_length_pos (v : PyVal) : 1 ≤ (encV v).length := by
  cases v <;> simp [encV]

theorem dec_roundtrip_aux : ∀ f : Nat,
    (∀ (v : PyVal) (rest : List PTok), 2 * (encV v).length ≤ f →
        decV f (encV v ++ rest) = some (v, rest)) ∧
    (∀ (xs : List PyVal) (rest : List PTok), 2 * (encL xs).length + 1 ≤ f →
        decL f xs.length (encL xs ++ rest) = some (xs, rest)) := by
  intro f
  induction f with
  | zero =>
    constructor
    · intro v rest h
      have := encV_length_pos v
      omega
    · intro xs rest h
      omega
  | succ f ih =>
    constructor
    · intro v rest h
      cases v with
      | pnone => simp [encV, decV]
      | str s => simp [encV, decV]
      | tuple xs =>
        have hd := ih.2 xs rest (by simp [encV] at h; omega)
        simp [encV, decV, hd]
      | pset xs =>
        have hd := ih.2 xs rest (by simp [encV] at h; omega)
        simp [encV, decV, hd]
      | plist xs =>
        have hd := ih.2 xs rest (by simp [encV] at h; omega)
        simp [encV, decV, hd]
    · intro xs rest h
      cases xs with
      | nil => simp [encL, decL]
      | cons x xs =>
        have hx := encV_length_pos x
        have h1 := ih.1 x (encL xs ++ rest) (by simp [encL] at h; omega)
        have h2 := ih.2 xs rest (by simp [encL] at h; omega)
        simp [encL, decL, List.append_assoc, h1, h2]

theorem mem_encOut_length (es : CacheDict String) (e : String × PyVal × Nat)
    (he : e ∈ es) : (encV e.2.1).length ≤ (encOut es).length := by
  induction es with
  | nil => cases he
  | cons e' es ih =>
    obtain ⟨k, v, ts⟩ := e'
    rcases List.mem_cons.1 he with heq | hmem
    · subst heq
      simp [encOut, encOutEntry]
      omega
    · have := ih hmem
      simp [encOut, encOutEntry]
      omega

theorem mem_encIn_length (es : CacheDict (String × String))
    (e : (String × String) × PyVal × Nat) (he : e ∈ es) :
    (encV e.2.1).length ≤ (encIn es).length := by
  induction es with
  | nil => cases he
  | cons e' es ih =>
    obtain ⟨⟨kd, k⟩, v, ts⟩ := e'
    rcases List.mem_cons.1 he with heq | hmem
    · subst heq
      simp [encIn, encInEntry]
      omega
    · have := ih hmem
      simp [encIn, encInEntry]
      omega

theorem decOutEntry_enc (f : Nat) (e : String × PyVal × Nat)
    (rest : List PTok) (hf : 2 * (encV e.2.1).length ≤ f) :
    decOutEntry f (encOutEntry e ++ rest) = some (e, rest) := by
  obtain ⟨k, v, ts⟩ := e
  have hd := (dec_roundtrip_aux f).1 v (PTok.tNat ts :: rest) hf
  simp only [encOutEntry, List.cons_append, List.append_assoc,
    List.singleton_append]
  simp [decOutEntry, hd]

theorem decOut_enc (f : Nat) (es : CacheDict String) (rest : List PTok)
    (hf : ∀ e ∈ es, 2 * (encV e.2.1).length ≤ f) :
    decOut f es.length (encOut es ++ rest) = some (es, rest) := by
  induction es with
  | nil => simp [encOut, decOut]
  | cons e es ih =>
    have h1 := decOutEntry_enc f e (encOut es ++ rest)
      (hf e (List.mem_cons_self e es))
    have h2 := ih fun x hx => hf x (List.mem_cons_of_mem e hx)
    simp [encOut, decOut, List.append_assoc, h1, h2]

theorem decInEntry_enc (f : Nat) (e : (String × String) × PyVal × Nat)
    (rest : List PTok) (hf : 2 * (encV e.2.1).length ≤ f) :
    decInEntry f (encInEntry e ++ rest) = some (e, rest) := by
  obtain ⟨⟨kd, k⟩, v, ts⟩ := e
  have hd := (dec_roundtrip_aux f).1 v (PTok.tNat ts :: rest) hf
  simp only [encInEntry, List.cons_append, List.append_assoc,
    List.singleton_append]
  simp [decInEntry, hd]

theorem decIn_enc (f : Nat) (es : CacheDict (String × String))
    (rest : List PTok)
    (hf : ∀ e ∈ es, 2 * (encV e.2.1).length ≤ f) :
    decIn f es.length (encIn es ++ rest) = some (es, rest) := by
  induction es with
  | nil => simp [encIn, decIn]
  | cons e es ih =>
    have h1 := decInEntry_enc f e (encIn es ++ rest)
      (hf e (List.mem_cons_self e es))
    have h2 := ih fun x hx => hf x (List.mem_cons_of_mem e hx)
    simp [encIn, decIn, List.append_assoc, h1, h2]

/-- The modelled `pickle` round-trips the whole two-namespace state
exactly. -/
theorem pickle_roundtrip (d : CacheData) :
    pickle_loads (pickle_dumps d) = some d := by
  obtain ⟨out, inp⟩ := d
  unfold pickle_loads
  have hout : ∀ e ∈ out, 2 * (encV e.2.1).length
      ≤ 2 * ((encOut out).length + ((encIn inp).length + 1) + 1) := by
    intro e he
    have := mem_encOut_length out e he
    omega
  have hin : ∀ e ∈ inp, 2 * (encV e.2.1).length
      ≤ 2 * ((encOut out).length + ((encIn inp).length + 1) + 1) := by
    intro e he
    have := mem_encIn_length inp e he
    omega
  have h1 := decOut_enc (2 * ((encOut out).length + ((encIn inp).length + 1) + 1))
    out (PTok.tNat inp.length :: encIn inp) hout
  have h2 : decIn (2 * ((encOut out).length + ((encIn inp).length + 1) + 1))
      inp.length (encIn inp) = some (inp, []) := by
    have := decIn_enc
      (2 * ((encOut out).length + ((encIn inp).length + 1) + 1)) inp [] hin
    simpa using this
  conv_lhs => rw [pickle_dumps]
  simp [pickle_loads_fuel, h1, h2]

/-- C6: `save()` followed by construction of a fresh store bound to the
same path (which loads) yields in-memory state structurally equal to the
pre-save state: both namespaces, every key, and every
`(payload, timestamp)` pair round-trip exactly, including nested tuple-
and set-shaped payloads. -/
theorem save_init_roundtrip (c : CacheFile) (fs : FileSys) :
    CacheFile.init c.path (c.save fs)
      = some { path := c.path, data := c.data } := by
  simp [CacheFile.init, CacheFile.save, CacheFile.loadPath,
    alookup_aupsert_self, pickle_roundtrip]

/-! ### C8: title extraction -/

theorem find_first_eq_none {β : Type} (l : List β) (p : β → Bool)
    (h : ∀ x ∈ l, p x = false) : find_first l p = none := by
  induction l with
  | nil => rfl
  | cons x xs ih =>
    have hx := h x (List.mem_cons_self x xs)
    simp [find_first, hx]
    exact ih fun y hy => h y (List.mem_cons_of_mem x hy)

theorem find_first_append_cons {β : Type} (pre : List β) (x : β)
    (post : List β) (p : β → Bool) (hpre : ∀ y ∈ pre, p y = false)
    (hx : p x = true) : find_first (pre ++ x :: post) p = some x := by
  induction pre with
  | nil => simp [find_first, hx]
  | cons y ys ih =>
    have hy := hpre y (List.mem_cons_self y ys)
    simp only [List.cons_append, find_first, hy]
    simp only [Bool.false_eq_true, if_false]
    exact ih fun z hz => hpre z (List.mem_cons_of_mem y hz)

/-- C8: `title` returns the payload of the first node in depth-first order
whose label is `h1`, and the sentinel `'Untitled'` when no such node
exists. -/
theorem title_spec (doc : AstNode) :
    ((∀ q ∈ iterA doc 0, q.2.name ≠ "h1") → title doc = some "Untitled")
    ∧ (∀ pre dn post, iterA doc 0 = pre ++ dn :: post →
        dn.2.name = "h1" → (∀ q ∈ pre, q.2.name ≠ "h1") →
        title doc = dn.2.data) := by
  constructor
  · intro h
    unfold title
    rw [find_first_eq_none _ _ fun q hq => by
      simp only [beq_eq_false_iff_ne, ne_eq]
      exact h q hq]
  · intro pre dn post hdec hdn hpre
    unfold title
    rw [hdec, find_first_append_cons pre dn post _
      (fun q hq => by
        simp only [beq_eq_false_iff_ne, ne_eq]
        exact hpre q hq)
      (by simp [hdn])]

/-- Witness for C8: a document whose only `h1` node has payload
`"My Doc"` is titled `"My Doc"` (second conjunct applied), and the
decomposition hypotheses hold concretely. -/
theorem title_spec_witness :
    (iterA (astDoc none [AstNode.mk "h1" (some "My Doc") []]) 0
        = [(0, astDoc none [AstNode.mk "h1" (some "My Doc") []])]
          ++ (1, AstNode.mk "h1" (some "My Doc") []) :: []
      ∧ (AstNode.mk "h1" (some "My Doc") []).name = "h1"
      ∧ (∀ q ∈ [((0 : Nat),
            astDoc none [AstNode.mk "h1" (some "My Doc") []])],
          q.2.name ≠ "h1"))
    ∧ title (astDoc none [AstNode.mk "h1" (some "My Doc") []])
        = some "My Doc" :=
  ⟨⟨rfl, rfl, by decide⟩,
   (title_spec (astDoc none [AstNode.mk "h1" (some "My Doc") []])).2
     [(0, astDoc none [AstNode.mk "h1" (some "My Doc") []])]
     (1, AstNode.mk "h1" (some "My Doc") []) [] rfl rfl (by decide)⟩

/-! ### Task-drain lemmas -/

theorem removeFirst_nil (i : Nat) : removeFirst [] i = [] := rfl

theorem ite_isEmpty_removeFirst (l : List Task) (i : Nat) :
    (if l.isEmpty then l else removeFirst l i) = removeFirst l i := by
  cases l <;> simp [removeFirst]

/-- `run_task` in closed form: the task is always recorded as evaluated;
when outdated it is appended to `executed_tasks` and its spawns join the
list; in both cases the first occurrence of the task (by identity) is
removed from the live list. -/
theorem run_task_eq (s : RunState) (t : Task) :
    run_task s t =
      if t.outdated then
        { task_list := removeFirst (s.task_list ++ t.spawns) t.id,
          executed_tasks := s.executed_tasks ++ [t],
          evaluated := s.evaluated ++ [t] }
      else
        { task_list := removeFirst s.task_list t.id,
          executed_tasks := s.executed_tasks,
          evaluated := s.evaluated ++ [t] } := by
  unfold run_task Task.exec
  cases h : t.outdated <;> simp [h, ite_isEmpty_removeFirst]

theorem cntId_append (i : Nat) (l1 l2 : List Task) :
    cntId i (l1 ++ l2) = cntId i l1 + cntId i l2 := by
  induction l1 with
  | nil => simp [cntId]
  | cons x xs ih => simp [cntId, ih]; omega

theorem cntId_pos_of_mem {t : Task} {l : List Task} (h : t ∈ l) :
    1 ≤ cntId t.id l := by
  induction l with
  | nil => cases h
  | cons x xs ih =>
    rcases List.mem_cons.1 h with heq | hmem
    · subst heq; simp [cntId]
    · have := ih hmem
      simp [cntId]
      split <;> omega

theorem mem_removeFirst_of_ne {x : Task} {l : List Task} {i : Nat}
    (hx : x ∈ l) (hne : x.id ≠ i) : x ∈ removeFirst l i := by
  induction l with
  | nil => cases hx
  | cons y ys ih =>
    rcases List.mem_cons.1 hx with heq | hmem
    · subst heq
      simp only [removeFirst]
      split
      · exact absurd (by assumption) hne
      · exact List.mem_cons_self x _
    · simp only [removeFirst]
      split
      · exact hmem
      · exact List.mem_cons_of_mem y (ih hmem)

theorem removeFirst_append_left {l1 : List Task} (l2 : List Task) {i : Nat}
    (h : ∃ x ∈ l1, x.id = i) :
    removeFirst (l1 ++ l2) i = removeFirst l1 i ++ l2 := by
  induction l1 with
  | nil => obtain ⟨x, hx, _⟩ := h; cases hx
  | cons y ys ih =>
    by_cases hy : y.id = i
    · simp [removeFirst, hy]
    · obtain ⟨x, hx, hxi⟩ := h
      rcases List.mem_cons.1 hx with heq | hmem
      · subst heq; exact absurd hxi hy
      · simp [removeFirst, hy, ih ⟨x, hmem, hxi⟩]

theorem allT_eq (t : Task) : allT t = t :: allLT t.spawns := by
  cases t; rfl

theorem allLT_cons (t : Task) (ts : List Task) :
    allLT (t :: ts) = allT t ++ allLT ts := rfl

theorem allLT_append (l1 l2 : List Task) :
    allLT (l1 ++ l2) = allLT l1 ++ allLT l2 := by
  induction l1 with
  | nil => rfl
  | cons x xs ih => simp [allLT_cons, ih]

theorem cntId_allT (v : Nat) (t : Task) :
    cntId v (allT t) = (if t.id = v then 1 else 0) + cntId v (allLT t.spawns) := by
  rw [allT_eq]
  rfl

theorem cntId_le_allLT (v : Nat) (l : List Task) :
    cntId v l ≤ cntId v (allLT l) := by
  induction l with
  | nil => simp [allLT]
  | cons x xs ih =>
    rw [allLT_cons, cntId_append, cntId_allT]
    simp [cntId]
    split <;> omega

theorem cntId_allT_le_of_mem {t : Task} {l : List Task} (h : t ∈ l)
    (v : Nat) : cntId v (allT t) ≤ cntId v (allLT l) := by
  induction l with
  | nil => cases h
  | cons x xs ih =>
    rw [allLT_cons, cntId_append]
    rcases List.mem_cons.1 h with heq | hmem
    · subst heq; omega
    · have := ih hmem; omega

theorem cntId_allT_two_le {c t : Task} {l : List Task} (hc : c ∈ l)
    (ht : t ∈ l) (hne : c ≠ t) (v : Nat) :
    cntId v (allT c) + cntId v (allT t) ≤ cntId v (allLT l) := by
  induction l with
  | nil => cases hc
  | cons x xs ih =>
    rw [allLT_cons, cntId_append]
    rcases List.mem_cons.1 hc with hceq | hcmem
    · subst hceq
      have htx : t ∈ xs := by
        rcases List.mem_cons.1 ht with hteq | htmem
        · exact absurd hteq.symm hne
        · exact htmem
      have := cntId_allT_le_of_mem htx v
      omega
    · rcases List.mem_cons.1 ht with hteq | htmem
      · subst hteq
        have := cntId_allT_le_of_mem hcmem v
        omega
      · have := ih hcmem htmem
        omega

/-- Under unique identities, two members of the list with the same `id`
are the same task (identity determines the object). -/
theorem mem_mem_same_id {l : List Task}
    (hUNQ : ∀ j, cntId j (allLT l) ≤ 1) {x t : Task}
    (hx : x ∈ l) (ht : t ∈ l) (hid : x.id = t.id) : x = t := by
  by_contra hne
  have h2 := cntId_allT_two_le hx ht hne t.id
  have hx1 : 1 ≤ cntId t.id (allT x) := by
    rw [cntId_allT, hid]
    simp
  have ht1 : 1 ≤ cntId t.id (allT t) := by
    rw [cntId_allT]
    simp
  have := hUNQ t.id
  omega

/-- Removing the (under unique identities: unique) occurrence of `t` from
the list removes exactly `t`'s subtree from the reachable tasks. -/
theorem cntId_allLT_removeFirst {l : List Task} {t : Task} (ht : t ∈ l)
    (hUNQ : ∀ j, cntId j (allLT l) ≤ 1) (v : Nat) :
    cntId v (allLT (removeFirst l t.id)) + cntId v (allT t)
      = cntId v (allLT l) := by
  induction l with
  | nil => cases ht
  | cons x xs ih =>
    by_cases hx : x.id = t.id
    · have hxt : x = t := mem_mem_same_id hUNQ (List.mem_cons_self x xs) ht hx
      subst hxt
      simp [removeFirst, hx, allLT_cons, cntId_append]
      omega
    · have htxs : t ∈ xs := by
        rcases List.mem_cons.1 ht with heq | hmem
        · subst heq; exact absurd rfl hx
        · exact hmem
      have hUNQ' : ∀ j, cntId j (allLT xs) ≤ 1 := by
        intro j
        have := hUNQ j
        rw [allLT_cons, cntId_append] at this
        omega
      simp only [removeFirst, if_neg hx, allLT_cons, cntId_append]
      have := ih htxs hUNQ'
      omega

theorem length_allLT_removeFirst {l : List Task} {t : Task} (ht : t ∈ l)
    (hUNQ : ∀ j, cntId j (allLT l) ≤ 1) :
    (allLT (removeFirst l t.id)).length + (allT t).length
      = (allLT l).length := by
  induction l with
  | nil => cases ht
  | cons x xs ih =>
    by_cases hx : x.id = t.id
    · have hxt : x = t := mem_mem_same_id hUNQ (List.mem_cons_self x xs) ht hx
      subst hxt
      simp [removeFirst, hx, allLT_cons, List.length_append]
      omega
    · have htxs : t ∈ xs := by
        rcases List.mem_cons.1 ht with heq | hmem
        · subst heq; exact absurd rfl hx
        · exact hmem
      have hUNQ' : ∀ j, cntId j (allLT xs) ≤ 1 := by
        intro j
        have := hUNQ j
        rw [allLT_cons, cntId_append] at this
        omega
      simp only [removeFirst, if_neg hx, allLT_cons, List.length_append]
      have := ih htxs hUNQ'
      omega

theorem allT_length_pos (t : Task) : 1 ≤ (allT t).length := by
  rw [allT_eq]
  simp

theorem cntId_removeFirst_le (v i : Nat) (l : List Task) :
    cntId v (removeFirst l i) ≤ cntId v l := by
  induction l with
  | nil => simp [removeFirst]
  | cons x xs ih =>
    simp only [removeFirst]
    split
    · simp [cntId]
    · have := ih
      by_cases hxv : x.id = v <;> simp only [cntId, hxv] <;> omega

theorem cntId_removeFirst_other {v i : Nat} (hne : v ≠ i) (l : List Task) :
    cntId v (removeFirst l i) = cntId v l := by
  induction l with
  | nil => rfl
  | cons x xs ih =>
    simp only [removeFirst]
    split
    · rename_i hx
      have : ¬ x.id = v := by rw [hx]; exact fun hh => hne hh.symm
      simp [cntId, this]
    · simp [cntId, ih]

theorem cntId_removeFirst_match {i : Nat} {l : List Task}
    (h : ∃ x ∈ l, x.id = i) :
    cntId i (removeFirst l i) + 1 = cntId i l := by
  induction l with
  | nil => obtain ⟨x, hx, _⟩ := h; cases hx
  | cons y ys ih =>
    by_cases hy : y.id = i
    · simp [removeFirst, hy, cntId]
      omega
    · obtain ⟨x, hx, hxi⟩ := h
      rcases List.mem_cons.1 hx with heq | hmem
      · subst heq; exact absurd hxi hy
      · have := ih ⟨x, hmem, hxi⟩
        simp only [removeFirst, if_neg hy, cntId]
        omega

theorem isEmpty_false_of_mem {x : Task} {l : List Task} (h : x ∈ l) :
    l.isEmpty = false := by
  cases l with
  | nil => cases h
  | cons a as => rfl

theorem run_tasks_fuel_step (f : Nat) (s : RunState)
    (h : s.task_list.isEmpty = false) :
    run_tasks_fuel (f + 1) s = run_tasks_fuel f (runPass s s.task_list) := by
  simp [run_tasks_fuel, h]

theorem runPass_nil (s : RunState) : runPass s [] = s := rfl

theorem runPass_cons (s : RunState) (t : Task) (snap : List Task) :
    runPass s (t :: snap) = runPass (run_task s t) snap := rfl

theorem run_task_evaluated (s : RunState) (t : Task) :
    (run_task s t).evaluated = s.evaluated ++ [t] := by
  cases h : t.outdated <;> simp [run_task_eq, h]

theorem runPass_evaluated : ∀ (snap : List Task) (s : RunState),
    (runPass s snap).evaluated = s.evaluated ++ snap := by
  intro snap
  induction snap with
  | nil => intro s; simp [runPass_nil]
  | cons t rest ih =>
    intro s
    rw [runPass_cons, ih, run_task_evaluated]
    simp

theorem run_task_filter (s : RunState) (t : Task)
    (h : s.executed_tasks = s.evaluated.filter fun x => x.outdated) :
    (run_task s t).executed_tasks
      = (run_task s t).evaluated.filter fun x => x.outdated := by
  cases ho : t.outdated <;>
    simp [run_task_eq, ho, List.filter_append, h, List.filter]

theorem runPass_filter : ∀ (snap : List Task) (s : RunState),
    s.executed_tasks = s.evaluated.filter (fun x => x.outdated) →
    (runPass s snap).executed_tasks
      = (runPass s snap).evaluated.filter fun x => x.outdated := by
  intro snap
  induction snap with
  | nil => intro s h; exact h
  | cons t rest ih =>
    intro s h
    rw [runPass_cons]
    exact ih _ (run_task_filter s t h)

/-- One `run_task` step, for a task present in the list, under unique
identities: it conserves "occurrences executed plus occurrences still
reachable", keeps reachable identity counts unique, strictly shrinks the
reachable-task measure, and drops at most the processed identity from the
live list. -/
theorem run_task_step (s : RunState) (t : Task)
    (ht : t ∈ s.task_list)
    (hUNQ : ∀ j, cntId j (allLT s.task_list) ≤ 1) :
    (∀ v, cntId v (run_task s t).executed_tasks
        + cntId v (allLT (run_task s t).task_list)
      ≤ cntId v s.executed_tasks + cntId v (allLT s.task_list))
    ∧ (∀ j, cntId j (allLT (run_task s t).task_list)
        ≤ cntId j (allLT s.task_list))
    ∧ (allLT (run_task s t).task_list).length + 1
        ≤ (allLT s.task_list).length
    ∧ (∀ j, cntId j s.task_list
        ≤ cntId j (run_task s t).task_list + (if t.id = j then 1 else 0))
    ∧ (∀ x ∈ s.task_list, x.id ≠ t.id → x ∈ (run_task s t).task_list) := by
  have hcons := fun v => cntId_allLT_removeFirst ht hUNQ v
  have hlen := length_allLT_removeFirst ht hUNQ
  have hallT := allT_length_pos t
  have hmatch : ∃ x ∈ s.task_list, x.id = t.id := ⟨t, ht, rfl⟩
  cases ho : t.outdated with
  | false =>
    have heq : run_task s t =
        { task_list := removeFirst s.task_list t.id,
          executed_tasks := s.executed_tasks,
          evaluated := s.evaluated ++ [t] } := by
      rw [run_task_eq]
      simp [ho]
    refine ⟨?_, ?_, ?_, ?_, ?_⟩
    · intro v
      have := hcons v
      simp only [heq]
      omega
    · intro j
      have := hcons j
      simp only [heq]
      omega
    · simp only [heq]
      omega
    · intro j
      simp only [heq]
      by_cases hj : t.id = j
      · have h5 := cntId_removeFirst_match (i := t.id) hmatch
        have hif : (if t.id = j then 1 else 0) = 1 := by simp [hj]
        rw [hif, ← hj]
        omega
      · have h5 := cntId_removeFirst_other (fun hh => hj hh.symm) s.task_list
        have hif : (if t.id = j then 1 else 0) = 0 := by simp [hj]
        rw [hif]
        omega
    · intro x hx hne
      simp only [heq]
      exact mem_removeFirst_of_ne hx hne
  | true =>
    have hsplit := @removeFirst_append_left s.task_list t.spawns t.id hmatch
    have heq : run_task s t =
        { task_list := removeFirst s.task_list t.id ++ t.spawns,
          executed_tasks := s.executed_tasks ++ [t],
          evaluated := s.evaluated ++ [t] } := by
      rw [run_task_eq]
      simp [ho, hsplit]
    refine ⟨?_, ?_, ?_, ?_, ?_⟩
    · intro v
      have h1 := hcons v
      have h2 := cntId_allT v t
      have h3 : cntId v [t] = if t.id = v then 1 else 0 := by
        simp [cntId]
      by_cases hj : t.id = v
      · have hif : (if t.id = v then 1 else 0) = 1 := by simp [hj]
        rw [hif] at h2 h3
        simp only [heq, allLT_append, cntId_append, h3]
        omega
      · have hif : (if t.id = v then 1 else 0) = 0 := by simp [hj]
        rw [hif] at h2 h3
        simp only [heq, allLT_append, cntId_append, h3]
        omega
    · intro j
      have h1 := hcons j
      have h2 := cntId_allT j t
      by_cases hj : t.id = j
      · have hif : (if t.id = j then 1 else 0) = 1 := by simp [hj]
        rw [hif] at h2
        simp only [heq, allLT_append, cntId_append]
        omega
      · have hif : (if t.id = j then 1 else 0) = 0 := by simp [hj]
        rw [hif] at h2
        simp only [heq, allLT_append, cntId_append]
        omega
    · have h2 : (allT t).length = 1 + (allLT t.spawns).length := by
        rw [allT_eq, List.length_cons]
        omega
      simp only [heq, allLT_append, List.length_append]
      omega
    · intro j
      simp only [heq, cntId_append]
      by_cases hj : t.id = j
      · have h5 := cntId_removeFirst_match (i := t.id) hmatch
        have hif : (if t.id = j then 1 else 0) = 1 := by simp [hj]
        rw [hif, ← hj]
        omega
      · have h5 := cntId_removeFirst_other (fun hh => hj hh.symm) s.task_list
        have hif : (if t.id = j then 1 else 0) = 0 := by simp [hj]
        rw [hif]
        omega
    · intro x hx hne
      simp only [heq]
      exact List.mem_append_left _ (mem_removeFirst_of_ne hx hne)

/-- One full pass over a snapshot of the live list: conservation of
"executed plus reachable" occurrence counts, preservation of unique
identities, and a strict decrease of the reachable-task measure by the
snapshot's length. -/
theorem runPass_main : ∀ (snap : List Task) (s : RunState),
    (∀ x ∈ snap, x ∈ s.task_list) →
    (∀ j, cntId j snap ≤ cntId j s.task_list) →
    (∀ j, cntId j (allLT s.task_list) ≤ 1) →
    ((∀ v, cntId v (runPass s snap).executed_tasks
        + cntId v (allLT (runPass s snap).task_list)
      ≤ cntId v s.executed_tasks + cntId v (allLT s.task_list))
     ∧ (∀ j, cntId j (allLT (runPass s snap).task_list) ≤ 1)
     ∧ (allLT (runPass s snap).task_list).length + snap.length
        ≤ (allLT s.task_list).length) := by
  intro snap
  induction snap with
  | nil =>
    intro s _ _ hUNQ
    exact ⟨fun v => by simp [runPass_nil], hUNQ, by simp [runPass_nil]⟩
  | cons t rest ih =>
    intro s hmem hcnt hUNQ
    have ht : t ∈ s.task_list := hmem t (List.mem_cons_self t rest)
    obtain ⟨hstep1, hstep2, hstep3, hstep4, hstep5⟩ :=
      run_task_step s t ht hUNQ
    have hUNQ' : ∀ j, cntId j (allLT (run_task s t).task_list) ≤ 1 :=
      fun j => le_trans (hstep2 j) (hUNQ j)
    have hmem' : ∀ x ∈ rest, x ∈ (run_task s t).task_list := by
      intro x hx
      have hxl : x ∈ s.task_list := hmem x (List.mem_cons_of_mem t hx)
      by_cases hxi : x.id = t.id
      · exfalso
        have hxt : x = t := mem_mem_same_id hUNQ hxl ht hxi
        subst hxt
        have h1 : 1 ≤ cntId x.id rest := cntId_pos_of_mem hx
        have h2 : cntId x.id (x :: rest) ≤ cntId x.id s.task_list :=
          hcnt x.id
        have h3 := cntId_le_allLT x.id s.task_list
        have h4 := hUNQ x.id
        simp [cntId] at h2
        omega
      · exact hstep5 x hxl hxi
    have hcnt' : ∀ j, cntId j rest ≤ cntId j (run_task s t).task_list := by
      intro j
      have h1 := hstep4 j
      have h2 := hcnt j
      by_cases hj : t.id = j
      · subst hj
        simp only [cntId, if_pos rfl] at h2
        simp only [if_pos rfl] at h1
        omega
      · have : cntId j (t :: rest) = cntId j rest := by
          simp [cntId, hj]
        simp only [if_neg hj] at h1
        omega
    obtain ⟨ihA, ihB, ihC⟩ := ih (run_task s t) hmem' hcnt' hUNQ'
    rw [runPass_cons]
    refine ⟨fun v => ?_, ihB, ?_⟩
    · have := ihA v
      have := hstep1 v
      omega
    · simp only [List.length_cons]
      omega

/-- With unique identities on a task list, the accumulated
`executed_tasks` of the whole drain never collects more occurrences of an
identity than were reachable at the start. -/
theorem run_tasks_fuel_conserve : ∀ (f : Nat) (s : RunState),
    (∀ j, cntId j (allLT s.task_list) ≤ 1) →
    ∀ v, cntId v (run_tasks_fuel f s).executed_tasks
      ≤ cntId v s.executed_tasks + cntId v (allLT s.task_list) := by
  intro f
  induction f with
  | zero =>
    intro s _ v
    simp only [run_tasks_fuel]
    omega
  | succ f ih =>
    intro s hUNQ v
    by_cases he : s.task_list.isEmpty
    · have hstop : run_tasks_fuel (f + 1) s = s := by
        simp [run_tasks_fuel, he]
      rw [hstop]
      omega
    · have hbool : s.task_list.isEmpty = false := by simpa using he
      rw [run_tasks_fuel_step f s hbool]
      obtain ⟨hA, hB, _⟩ := runPass_main s.task_list s (fun x hx => hx)
        (fun j => Nat.le_refl _) hUNQ
      have h1 := ih (runPass s s.task_list) hB v
      have h2 := hA v
      omega

theorem run_tasks_fuel_filter : ∀ (f : Nat) (s : RunState),
    s.executed_tasks = s.evaluated.filter (fun x => x.outdated) →
    (run_tasks_fuel f s).executed_tasks
      = (run_tasks_fuel f s).evaluated.filter fun x => x.outdated := by
  intro f
  induction f with
  | zero => intro s h; exact h
  | succ f ih =>
    intro s h
    by_cases he : s.task_list.isEmpty
    · have hstop : run_tasks_fuel (f + 1) s = s := by
        simp [run_tasks_fuel, he]
      rw [hstop]
      exact h
    · have hbool : s.task_list.isEmpty = false := by simpa using he
      rw [run_tasks_fuel_step f s hbool]
      exact ih _ (runPass_filter s.task_list s h)

theorem run_tasks_fuel_evaluated_mono : ∀ (f : Nat) (s : RunState) (x : Task),
    x ∈ s.evaluated → x ∈ (run_tasks_fuel f s).evaluated := by
  intro f
  induction f with
  | zero => intro s x h; exact h
  | succ f ih =>
    intro s x h
    by_cases he : s.task_list.isEmpty
    · have hstop : run_tasks_fuel (f + 1) s = s := by
        simp [run_tasks_fuel, he]
      rw [hstop]
      exact h
    · have hbool : s.task_list.isEmpty = false := by simpa using he
      rw [run_tasks_fuel_step f s hbool]
      refine ih _ x ?_
      rw [runPass_evaluated]
      exact List.mem_append_left _ h

/-- Every task present in the live list is evaluated (its `exec` invoked)
once any fuel remains: the next pass snapshots the whole list. -/
theorem mem_task_list_evaluated : ∀ (f : Nat) (s : RunState) (u : Task),
    u ∈ s.task_list → 1 ≤ f → u ∈ (run_tasks_fuel f s).evaluated := by
  intro f
  cases f with
  | zero => intro s u _ h; omega
  | succ f =>
    intro s u hu _
    rw [run_tasks_fuel_step f s (isEmpty_false_of_mem hu)]
    refine run_tasks_fuel_evaluated_mono f _ u ?_
    rw [runPass_evaluated]
    exact List.mem_append_right _ hu

theorem runPass_persist : ∀ (snap : List Task) (s : RunState) (u : Task),
    (∀ c ∈ snap, c.id ≠ u.id) → u ∈ s.task_list →
    u ∈ (runPass s snap).task_list := by
  intro snap
  induction snap with
  | nil => intro s u _ hu; exact hu
  | cons c rest ih =>
    intro s u hsnap hu
    rw [runPass_cons]
    refine ih _ u (fun c' hc' => hsnap c' (List.mem_cons_of_mem c hc')) ?_
    have hne : u.id ≠ c.id :=
      fun hh => hsnap c (List.mem_cons_self c rest) hh.symm
    cases ho : c.outdated <;> simp only [run_task_eq, ho, if_true, if_false]
    · exact mem_removeFirst_of_ne hu hne
    · exact mem_removeFirst_of_ne (List.mem_append_left _ hu) hne

/-- During a pass, a task `U` spawned by an outdated snapshot member `T`
ends the pass in the live list, provided no snapshot member carries `U`'s
identity. -/
theorem runPass_spawn : ∀ (snap : List Task) (s : RunState) (T U : Task),
    T ∈ snap → T.outdated = true → U ∈ T.spawns →
    (∀ c ∈ snap, c.id ≠ U.id) →
    U ∈ (runPass s snap).task_list := by
  intro snap
  induction snap with
  | nil => intro s T U hT _ _ _; cases hT
  | cons c rest ih =>
    intro s T U hT ho hU hsnap
    rcases List.mem_cons.1 hT with heq | hmem
    · subst heq
      rw [runPass_cons]
      refine runPass_persist rest _ U
        (fun c' hc' => hsnap c' (List.mem_cons_of_mem T hc')) ?_
      have hne : U.id ≠ T.id :=
        fun hh => hsnap T (List.mem_cons_self T rest) hh.symm
      simp only [run_task_eq, ho, if_true]
      exact mem_removeFirst_of_ne (List.mem_append_right _ hU) hne
    · rw [runPass_cons]
      exact ih (run_task s c) T U hmem ho hU
        fun c' hc' => hsnap c' (List.mem_cons_of_mem c hc')

theorem cntId_eq_count (j : Nat) : ∀ l : List Task,
    cntId j l = List.count j (l.map Task.id) := by
  intro l
  induction l with
  | nil => rfl
  | cons x xs ih =>
    by_cases hx : x.id = j <;>
      simp [cntId, hx, List.count_cons, ih] <;> omega

theorem length_allT_le_of_mem {t : Task} {l : List Task} (h : t ∈ l) :
    (allT t).length ≤ (allLT l).length := by
  induction l with
  | nil => cases h
  | cons x xs ih =>
    rw [allLT_cons, List.length_append]
    rcases List.mem_cons.1 h with heq | hmem
    · subst heq; omega
    · have := ih hmem; omega

/-- The fuel bound `sizeL` is sufficient: with unique identities, the
drain loop actually reaches an empty task list (the `while` loop's exit
condition), so `run_tasks` models the loop run to completion. -/
theorem run_tasks_fuel_complete : ∀ (f : Nat) (s : RunState),
    (allLT s.task_list).length ≤ f →
    (∀ j, cntId j (allLT s.task_list) ≤ 1) →
    (run_tasks_fuel f s).task_list = [] := by
  intro f
  induction f with
  | zero =>
    intro s hlen _
    have : s.task_list = [] := by
      cases hl : s.task_list with
      | nil => rfl
      | cons a as =>
        exfalso
        have h1 := allT_length_pos a
        rw [hl, allLT_cons, List.length_append] at hlen
        omega
    simpa [run_tasks_fuel]
  | succ f ih =>
    intro s hlen hUNQ
    by_cases he : s.task_list.isEmpty
    · have hstop : run_tasks_fuel (f + 1) s = s := by
        simp [run_tasks_fuel, he]
      rw [hstop]
      exact List.isEmpty_iff.1 he
    · have hbool : s.task_list.isEmpty = false := by simpa using he
      rw [run_tasks_fuel_step f s hbool]
      obtain ⟨_, hB, hC⟩ := runPass_main s.task_list s (fun x hx => hx)
        (fun j => Nat.le_refl _) hUNQ
      have hne : s.task_list ≠ [] := by
        intro hh
        rw [hh] at hbool
        simp at hbool
      have hpos : 1 ≤ s.task_list.length := by
        cases hl : s.task_list with
        | nil => exact absurd hl hne
        | cons a as => simp
      exact ih _ (by omega) hB

theorem run_tasks_complete (l : List Task)
    (hids : ((allLT l).map Task.id).Nodup) :
    (run_tasks (initState l)).task_list = [] := by
  have hUNQ : ∀ j, cntId j (allLT l) ≤ 1 := by
    intro j
    rw [cntId_eq_count]
    exact List.nodup_iff_count_le_one.1 hids j
  exact run_tasks_fuel_complete (sizeL l) (initState l) (Nat.le_refl _) hUNQ

/-! ### C2: at-most-once execution -/

/-- C2 (amended): provided no task object occurs twice among the list and
the tasks spawned during the run (unique identities), after `run_tasks`:
every task's `run()` was invoked at most once (`executed_tasks` holds at
most one occurrence of each identity); `executed_tasks` is exactly the
subsequence of evaluated tasks whose `is_outdated()` returned true, in
execution order; and every outdated task of the initial list was
executed. -/
theorem run_tasks_at_most_once (l : List Task)
    (hids : ((allLT l).map Task.id).Nodup) :
    (∀ i, cntId i (run_tasks (initState l)).executed_tasks ≤ 1)
    ∧ (run_tasks (initState l)).executed_tasks
        = (run_tasks (initState l)).evaluated.filter (fun t => t.outdated)
    ∧ ∀ t ∈ l, t.outdated = true →
        t ∈ (run_tasks (initState l)).executed_tasks := by
  have hUNQ : ∀ j, cntId j (allLT l) ≤ 1 := by
    intro j
    rw [cntId_eq_count]
    exact List.nodup_iff_count_le_one.1 hids j
  have hfilter : (run_tasks (initState l)).executed_tasks
      = (run_tasks (initState l)).evaluated.filter fun t => t.outdated :=
    run_tasks_fuel_filter (sizeL l) (initState l) rfl
  refine ⟨?_, hfilter, ?_⟩
  · intro i
    have hc := run_tasks_fuel_conserve (sizeL l) (initState l) hUNQ i
    have e1 : (initState l).task_list = l := rfl
    have e2 : (initState l).executed_tasks = [] := rfl
    rw [e1, e2] at hc
    have h0 : cntId i ([] : List Task) = 0 := rfl
    rw [h0] at hc
    show cntId i (run_tasks_fuel (sizeL l) (initState l)).executed_tasks ≤ 1
    have h1 := hUNQ i
    omega
  · intro t htl hto
    have hsz : 1 ≤ sizeL l := by
      have h1 := length_allT_le_of_mem htl
      have h2 := allT_length_pos t
      unfold sizeL
      omega
    have hev : t ∈ (run_tasks (initState l)).evaluated :=
      mem_task_list_evaluated (sizeL l) (initState l) t htl hsz
    rw [hfilter]
    exact List.mem_filter.2 ⟨hev, hto⟩

/-- Counterexample to C2 as stated: adding the same task object (identity
`0`, always outdated) to the task list twice makes the drain invoke its
`run()` twice — `executed_tasks` collects two occurrences — where the
claim requires at most one invocation per task for every task list. -/
theorem run_tasks_duplicate_runs_twice :
    cntId 0 (run_tasks (initState
      [Task.mk 0 true [], Task.mk 0 true []])).executed_tasks = 2 := by
  decide

/-- Witness for C2's amended theorem on a three-task list (one task spawns
a fresh non-outdated task, one fresh task is not outdated). -/
theorem run_tasks_at_most_once_witness :
    ((allLT [Task.mk 0 true [Task.mk 1 false []],
        Task.mk 2 true []]).map Task.id).Nodup
    ∧ ((∀ i, cntId i (run_tasks (initState [Task.mk 0 true [Task.mk 1 false []],
          Task.mk 2 true []])).executed_tasks ≤ 1)
      ∧ (run_tasks (initState [Task.mk 0 true [Task.mk 1 false []],
          Task.mk 2 true []])).executed_tasks
          = (run_tasks (initState [Task.mk 0 true [Task.mk 1 false []],
              Task.mk 2 true []])).evaluated.filter (fun t => t.outdated)
      ∧ ∀ t ∈ [Task.mk 0 true [Task.mk 1 false []], Task.mk 2 true []],
          t.outdated = true →
          t ∈ (run_tasks (initState [Task.mk 0 true [Task.mk 1 false []],
              Task.mk 2 true []])).executed_tasks) :=
  ⟨by decide,
   run_tasks_at_most_once
     [Task.mk 0 true [Task.mk 1 false []], Task.mk 2 true []] (by decide)⟩

/-! ### C3: dynamic task insertion -/

theorem spawned_fresh_not_in_list (l : List Task) (T U : Task)
    (hT : T ∈ l) (hU : U ∈ T.spawns)
    (hfresh : cntId U.id (allLT l) = 1) :
    ∀ c ∈ l, c.id ≠ U.id := by
  intro c hc heq
  have hU1 : 1 ≤ cntId U.id T.spawns := cntId_pos_of_mem hU
  have hU2 : cntId U.id T.spawns ≤ cntId U.id (allLT T.spawns) :=
    cntId_le_allLT _ _
  by_cases hcT : c = T
  · subst hcT
    have h3 := cntId_allT U.id c
    have h4 := cntId_allT_le_of_mem hc U.id
    have hif : (if c.id = U.id then 1 else 0) = 1 := by simp [heq]
    rw [hif] at h3
    omega
  · have h2 := cntId_allT_two_le hc hT hcT U.id
    have h3 := cntId_allT U.id c
    have hif : (if c.id = U.id then 1 else 0) = 1 := by simp [heq]
    rw [hif] at h3
    have h5 := cntId_allT U.id T
    by_cases hT2 : T.id = U.id
    · have hif2 : (if T.id = U.id then 1 else 0) = 1 := by simp [hT2]
      rw [hif2] at h5
      omega
    · have hif2 : (if T.id = U.id then 1 else 0) = 0 := by simp [hT2]
      rw [hif2] at h5
      omega

/-- C3: a task `T` of the list whose `run()` appends a new task `U` to
the same list during the drain results in `U` itself being evaluated (its
`exec` invoked via the staleness protocol) before `run_tasks` returns.
`U` being a *new* task object is captured by its identity occurring
exactly once among the tasks reachable from the initial list. -/
theorem spawned_task_evaluated (l : List Task) (T U : Task)
    (hT : T ∈ l) (ho : T.outdated = true) (hU : U ∈ T.spawns)
    (hfresh : cntId U.id (allLT l) = 1) :
    U ∈ (run_tasks (initState l)).evaluated := by
  have hsnap : ∀ c ∈ l, c.id ≠ U.id :=
    spawned_fresh_not_in_list l T U hT hU hfresh
  have hsz : 2 ≤ sizeL l := by
    have h1 := length_allT_le_of_mem hT
    have h2 : (allT T).length = 1 + (allLT T.spawns).length := by
      rw [allT_eq, List.length_cons]
      omega
    have h3 := length_allT_le_of_mem (l := T.spawns) hU
    have h4 := allT_length_pos U
    unfold sizeL
    omega
  obtain ⟨g, hg⟩ : ∃ g, sizeL l = g + 2 := ⟨sizeL l - 2, by omega⟩
  show U ∈ (run_tasks_fuel (sizeL l) (initState l)).evaluated
  rw [hg, run_tasks_fuel_step (g + 1) (initState l) (isEmpty_false_of_mem hT)]
  refine mem_task_list_evaluated (g + 1) _ U ?_ (by omega)
  exact runPass_spawn l (initState l) T U hT ho hU hsnap

/-- Witness for C3: a single always-outdated task with identity `0`
spawning a fresh task with identity `1`; the spawned task is evaluated. -/
theorem spawned_task_evaluated_witness :
    (Task.mk 0 true [Task.mk 1 true []]
        ∈ [Task.mk 0 true [Task.mk 1 true []]]
      ∧ (Task.mk 0 true [Task.mk 1 true []]).outdated = true
      ∧ Task.mk 1 true [] ∈ (Task.mk 0 true [Task.mk 1 true []]).spawns
      ∧ cntId (Task.mk 1 true []).id
          (allLT [Task.mk 0 true [Task.mk 1 true []]]) = 1)
    ∧ Task.mk 1 true []
        ∈ (run_tasks (initState
            [Task.mk 0 true [Task.mk 1 true []]])).evaluated :=
  ⟨⟨List.mem_singleton.2 rfl, rfl, List.mem_singleton.2 rfl, rfl⟩,
   spawned_task_evaluated [Task.mk 0 true [Task.mk 1 true []]]
     (Task.mk 0 true [Task.mk 1 true []]) (Task.mk 1 true [])
     (List.mem_singleton.2 rfl) rfl (List.mem_singleton.2 rfl) rfl⟩

/-! ### C5: frame of a skipped task -/

/-- C5 (amended): when a task's `is_outdated()` is false, `exec` returns
false, does not invoke `run()` (the result does not depend on `run`), and
leaves the build context — task lists, `executed_tasks`, and the cache —
untouched; the one mutation is the unconditional `self.ctx = ctx` binding
performed before the staleness check. -/
theorem exec_skipped (run : ExecCtxState → ExecCtxState) (t : TaskObj)
    (c : Nat) (st : ExecCtxState) (h : t.outdated = false) :
    TaskObj.exec run t c st = (false, { t with ctx := some c }, st) := by
  simp [TaskObj.exec, h]

/-- Counterexample to C5 as stated: a skipped `exec` still mutates the
task's state — the previously unbound `ctx` attribute is bound to the
passed context — where the claim requires the task's state to be
unchanged by the call. -/
theorem exec_skipped_rebinds_ctx :
    ((TaskObj.mk false none).exec (fun st => st) 0
        { compile_tasks := [], link_tasks := [], executed_tasks := [],
          cache := emptyCache }).2.1
      ≠ TaskObj.mk false none := by
  simp [TaskObj.exec]

/-- Witness for C5's amended theorem at a concrete skipped task. -/
theorem exec_skipped_witness :
    (TaskObj.mk false none).outdated = false
    ∧ (TaskObj.mk false none).exec (fun st => st) 0
        { compile_tasks := [], link_tasks := [], executed_tasks := [],
          cache := emptyCache }
      = (false, TaskObj.mk false (some 0),
          { compile_tasks := [], link_tasks := [], executed_tasks := [],
            cache := emptyCache }) :=
  ⟨rfl,
   exec_skipped (fun st => st) (TaskObj.mk false none) 0
     { compile_tasks := [], link_tasks := [], executed_tasks := [],
       cache := emptyCache } rfl⟩

end Contingent
